import Mathlib

/-!
Verification of the fractional-delay compensation subsystem of
`conference_materials/SCR2025/filter_delay.py`.

The script is embedded shallowly over `ℚ` (exact rationals standing in for
IEEE doubles): the tap synthesizer `poly_taps`, the channel-group timing
model (`np.zeros` + fancy-index assignment loop), valid-mode `np.convolve`,
and `np.unwrap` (with its `period` argument, defaulted by NumPy to the
double closest to 2π). Fallible NumPy operations are embedded in `Except`.
-/

namespace FilterDelay

/-- Runtime errors NumPy can raise in the embedded operations:
`ValueError` (negative array size, empty convolution operand) and
`IndexError` (fancy-index assignment out of range). -/
inductive NpError where
  | valueError
  | indexError
deriving DecidableEq

/-! ## Timing constants and group table, from the top of the script -/

/-- `adc_clock_speed = 50e6  # [Hz]` -/
def adc_clock_speed : ℚ := 50000000

/-- `adc_clock_period = 1.0 / adc_clock_speed  # [s]` -/
def adc_clock_period : ℚ := 1 / adc_clock_speed

/-- `adc_sample_hold_cycles = 16.5` -/
def adc_sample_hold_cycles : ℚ := 16.5

/-- `adc_sample_hold = adc_sample_hold_cycles * adc_clock_period  # [s]` -/
def adc_sample_hold : ℚ := adc_sample_hold_cycles * adc_clock_period

/-- `adc_conversion_time = 0.0  # [s]` (placeholder zero in the source) -/
def adc_conversion_time : ℚ := 0

/-- `delay_per_group = adc_sample_hold + adc_conversion_time  # [s]` -/
def delay_per_group : ℚ := adc_sample_hold + adc_conversion_time

/-- The static channel→group table `groups` from the script. -/
def groups : List (List ℕ) :=
  [[8, 9, 0], [10, 12, 1], [11, 13, 2], [14, 15, 3], [16, 17, 4], [18, 5], [19, 6], [7]]

/-! ## Timing model: `delays = np.zeros(20); for i, group in enumerate(groups): delays[group] = i * delay_per_group` -/

/-- NumPy fancy-index assignment `ds[idxs] = v`: sets every listed index,
left to right; an index out of range raises `IndexError`. -/
def setIndices : List ℚ → List ℕ → ℚ → Except NpError (List ℚ)
  | ds, [], _ => .ok ds
  | ds, c :: rest, v =>
      if c < ds.length then setIndices (ds.set c v) rest v else .error .indexError

/-- The loop body of the timing model: for each group (at running index `i`)
assign `i * d` to every channel of the group. -/
def channelDelaysAux : List ℚ → List (List ℕ) → ℕ → ℚ → Except NpError (List ℚ)
  | ds, [], _, _ => .ok ds
  | ds, g :: rest, i, d =>
      match setIndices ds g ((i : ℚ) * d) with
      | .error e => .error e
      | .ok ds2 => channelDelaysAux ds2 rest (i + 1) d

/-- The timing model: `np.zeros(n)` followed by the enumerate-assign loop. -/
def channelDelays (gs : List (List ℕ)) (n : ℕ) (d : ℚ) : Except NpError (List ℚ) :=
  channelDelaysAux (List.replicate n 0) gs 0 d

/-- The script's concrete per-channel delay array (20 channels). -/
def delays : Except NpError (List ℚ) := channelDelays groups 20 delay_per_group

/-- Index of the last group (in list order) containing channel `c`, if any.
Captures the net effect of the assignment loop: a later group overwrites an
earlier one. -/
def lastIdx : List (List ℕ) → ℕ → Option ℕ
  | [], _ => none
  | g :: rest, c =>
      match lastIdx rest c with
      | some j => some (j + 1)
      | none => if c ∈ g then some 0 else none

/-! ## Tap synthesizer `poly_taps(order, delay)` -/

/-- The inner loop of `poly_taps`:
`coeff = 1.0; for m in range(order): if m != k: coeff *= (delay - m) / (k - m)`. -/
def polyTapsCoeff (order : ℕ) (delay : ℚ) (k : ℕ) : ℚ :=
  (List.range order).foldl
    (fun coeff m =>
      if m ≠ k then coeff * ((delay - (m : ℚ)) / ((k : ℚ) - (m : ℚ))) else coeff) 1

/-- `poly_taps(order, delay)`: `taps = np.zeros(order)` (raising `ValueError`
for a negative size) then `taps[k]` set by the coefficient loop for each
`k in range(order)`. -/
def poly_taps (order : ℤ) (delay : ℚ) : Except NpError (List ℚ) :=
  if order < 0 then .error .valueError
  else .ok ((List.range order.toNat).map fun k => polyTapsCoeff order.toNat delay k)

/-! ## Signal applicator: `np.convolve(taps, samples, mode="valid")` -/

/-- Full discrete convolution (`np.convolve` full mode), zero-padded:
`(a ∗ v)[n] = Σ_m a[m]·v[n−m]`, of length `len a + len v − 1`. -/
def convFull (a v : List ℚ) : List ℚ :=
  (List.range (a.length + v.length - 1)).map fun n =>
    ∑ m ∈ Finset.range a.length,
      a.getD m 0 * (if m ≤ n ∧ n - m < v.length then v.getD (n - m) 0 else 0)

/-- `np.convolve(a, v, mode="valid")`: the central
`max(M,N) − min(M,N) + 1` entries of the full convolution where the two
sequences overlap completely; an empty operand raises `ValueError`. -/
def convolveValid (a v : List ℚ) : Except NpError (List ℚ) :=
  if a.length = 0 ∨ v.length = 0 then .error .valueError
  else .ok (((convFull a v).drop (min a.length v.length - 1)).take
              (max a.length v.length - min a.length v.length + 1))

/-- The time axis the script pairs with the corrected samples:
`sample_t[order-1:]`. -/
def correctedSampleTimes (ts : List ℚ) (order : ℕ) : List ℚ :=
  ts.drop (order - 1)

/-! ## Response verifier phase step: `np.unwrap(np.angle(h, deg=True))` -/

/-- NumPy-style modulo for a positive period: `x mod p = x − p·⌊x/p⌋`. -/
def qmod (x p : ℚ) : ℚ := x - p * ⌊x / p⌋

/-- The per-difference correction applied by `np.unwrap` with period `period`
and the default `discont = period/2`: the difference is mapped into
`(−period/2, period/2]` and the shift is applied only when the raw
difference reaches `discont` in magnitude. -/
def unwrapCorrection (period dd : ℚ) : ℚ :=
  let ddmod0 := qmod (dd + period / 2) period - period / 2
  let ddmod := if ddmod0 = -(period / 2) ∧ 0 < dd then period / 2 else ddmod0
  if |dd| < period / 2 then 0 else ddmod - dd

/-- Tail of `np.unwrap`: `prev` is the previous raw element, `acc` the
accumulated correction (`cumsum(ph_correct)`). -/
def npUnwrapAux (period : ℚ) : ℚ → ℚ → List ℚ → List ℚ
  | _, _, [] => []
  | prev, acc, x :: rest =>
      let acc2 := acc + unwrapCorrection period (x - prev)
      (x + acc2) :: npUnwrapAux period x acc2 rest

/-- `np.unwrap(p, period=period)` on a 1-D sequence. -/
def npUnwrap (period : ℚ) : List ℚ → List ℚ
  | [] => []
  | x :: rest => x :: npUnwrapAux period x 0 rest

/-- The IEEE double closest to 2π, exactly: NumPy's default `period`
argument of `np.unwrap`. -/
def twoPiFloat : ℚ := 884279719003555 / 140737488355328

/-- The script's phase post-processing applied to a phase-in-degrees
sequence: `np.unwrap(np.angle(h, deg=True))`, i.e. `np.unwrap` with its
default (radian) period on degree-valued data. -/
def phaseUnwrapDeg (anglesDeg : List ℚ) : List ℚ :=
  npUnwrap twoPiFloat anglesDeg

/-! ## Helper lemmas -/

theorem foldl_mul_if (f : ℕ → ℚ) (k : ℕ) (l : List ℕ) (c : ℚ) :
    l.foldl (fun acc m => if m ≠ k then acc * f m else acc) c
      = c * l.foldl (fun acc m => if m ≠ k then acc * f m else acc) 1 := by
  induction l generalizing c with
  | nil => simp
  | cons a t ih =>
    simp only [List.foldl_cons]
    by_cases h : a ≠ k
    · rw [if_pos h, if_pos h, ih (c * f a), ih (1 * f a), one_mul, mul_assoc]
    · rw [if_neg h, if_neg h, ih c]

/-- The inner loop of `poly_taps` computes the Lagrange basis product over
the node set `{0, …, order−1}` with node `k` removed. -/
theorem polyTapsCoeff_eq_prod (order : ℕ) (delay : ℚ) (k : ℕ) :
    polyTapsCoeff order delay k
      = ∏ m ∈ (Finset.range order).erase k,
          (delay - (m : ℚ)) / ((k : ℚ) - (m : ℚ)) := by
  induction order with
  | zero => simp [polyTapsCoeff]
  | succ n ih =>
    rw [polyTapsCoeff] at ih ⊢
    rw [List.range_succ, List.foldl_append, List.foldl_cons, List.foldl_nil]
    by_cases h : n = k
    · subst h
      rw [if_neg (by simp), Finset.range_succ,
        Finset.erase_insert Finset.not_mem_range_self, ih,
        Finset.erase_eq_of_not_mem Finset.not_mem_range_self]
    · rw [if_pos (by simpa using h), Finset.range_succ,
        Finset.erase_insert_of_ne h,
        Finset.prod_insert (fun hc => Finset.not_mem_range_self (Finset.mem_of_mem_erase hc)),
        ih, mul_comm]

theorem list_range_map_sum (f : ℕ → ℚ) (n : ℕ) :
    ((List.range n).map f).sum = ∑ k ∈ Finset.range n, f k := by
  induction n with
  | zero => simp
  | succ m ih =>
    rw [List.range_succ, List.map_append, List.sum_append, Finset.sum_range_succ, ih]
    simp

/-- Each synthesized coefficient is the evaluation at `delay` of the
corresponding Mathlib Lagrange basis polynomial on nodes `0, …, order−1`. -/
theorem polyTapsCoeff_eq_eval_basis (order : ℕ) (delay : ℚ) (k : ℕ) :
    polyTapsCoeff order delay k
      = Polynomial.eval delay
          (Lagrange.basis (Finset.range order) (fun m : ℕ => (m : ℚ)) k) := by
  rw [polyTapsCoeff_eq_prod, Lagrange.basis, Polynomial.eval_prod]
  refine Finset.prod_congr rfl fun m _ => ?_
  rw [Lagrange.basisDivisor]
  simp only [Polynomial.eval_mul, Polynomial.eval_C, Polynomial.eval_sub,
    Polynomial.eval_X]
  rw [div_eq_mul_inv, mul_comm]

theorem getD_map_range (f : ℕ → ℚ) (n k : ℕ) (hk : k < n) :
    ((List.range n).map f).getD k 0 = f k := by
  rw [List.getD_eq_getElem?_getD, List.getElem?_map, List.getElem?_range hk]
  rfl

theorem getD_map_range_of_ge (f : ℕ → ℚ) (n k : ℕ) (hk : n ≤ k) :
    ((List.range n).map f).getD k 0 = 0 := by
  rw [List.getD_eq_getElem?_getD, List.getElem?_map,
    List.getElem?_eq_none (by simpa using hk)]
  rfl

theorem getD_set (l : List ℚ) (i j : ℕ) (v : ℚ) (hi : i < l.length) :
    (l.set i v).getD j 0 = if j = i then v else l.getD j 0 := by
  by_cases h : j = i
  · subst h
    rw [List.getD_eq_getElem?_getD, List.getElem?_set, if_pos rfl, if_pos hi, if_pos rfl]
    rfl
  · rw [List.getD_eq_getElem?_getD, List.getElem?_set,
      if_neg (fun hc => h hc.symm), if_neg h, ← List.getD_eq_getElem?_getD]

theorem getD_replicate_zero (n c : ℕ) : (List.replicate n (0 : ℚ)).getD c 0 = 0 := by
  rw [List.getD_eq_getElem?_getD, List.getElem?_replicate]
  by_cases h : c < n <;> simp [h]

/-- Fancy-index assignment succeeds exactly on in-range indices; it
preserves length and sets every listed index to the assigned value. -/
theorem setIndices_spec (idxs : List ℕ) (ds : List ℚ) (v : ℚ)
    (h : ∀ c ∈ idxs, c < ds.length) :
    ∃ ds2, setIndices ds idxs v = .ok ds2 ∧ ds2.length = ds.length
      ∧ ∀ c, ds2.getD c 0 = if c ∈ idxs then v else ds.getD c 0 := by
  induction idxs generalizing ds with
  | nil => exact ⟨ds, rfl, rfl, by simp⟩
  | cons a t ih =>
    have ha : a < ds.length := h a (by simp)
    obtain ⟨ds2, h1, h2, h3⟩ := ih (ds.set a v) (fun c hc => by
      rw [List.length_set]; exact h c (by simp [hc]))
    refine ⟨ds2, ?_, by rw [h2, List.length_set], fun c => ?_⟩
    · simp only [setIndices]
      rw [if_pos ha]
      exact h1
    · rw [h3 c, getD_set ds a c v ha]
      by_cases hct : c ∈ t
      · simp [hct]
      · by_cases hca : c = a
        · simp [hct, hca]
        · simp [hct, hca]

/-- Net effect of the assignment loop: each channel ends at the delay of
the last group (in list order) that contains it, untouched otherwise. -/
theorem channelDelaysAux_spec (gs : List (List ℕ)) (ds : List ℚ) (i : ℕ) (d : ℚ)
    (h : ∀ g ∈ gs, ∀ c ∈ g, c < ds.length) :
    ∃ ds2, channelDelaysAux ds gs i d = .ok ds2 ∧ ds2.length = ds.length
      ∧ ∀ c, ds2.getD c 0 =
          match lastIdx gs c with
          | some j => ((i + j : ℕ) : ℚ) * d
          | none => ds.getD c 0 := by
  induction gs generalizing ds i with
  | nil => exact ⟨ds, rfl, rfl, fun c => by simp [lastIdx]⟩
  | cons g rest ih =>
    obtain ⟨ds1, hs1, hl1, hv1⟩ := setIndices_spec g ds ((i : ℚ) * d) (h g (by simp))
    obtain ⟨ds2, hs2, hl2, hv2⟩ := ih ds1 (i + 1)
      (fun gg hgg c hc => by rw [hl1]; exact h gg (by simp [hgg]) c hc)
    refine ⟨ds2, ?_, by rw [hl2, hl1], fun c => ?_⟩
    · simp only [channelDelaysAux]
      rw [hs1]
      exact hs2
    · rw [hv2 c]
      cases hrest : lastIdx rest c with
      | some j =>
        simp only [lastIdx, hrest]
        push_cast
        ring
      | none =>
        rw [hv1 c]
        by_cases hcg : c ∈ g
        · simp [lastIdx, hrest, hcg]
        · simp [lastIdx, hrest, hcg]

theorem lastIdx_mem (gs : List (List ℕ)) (c j : ℕ) (h : lastIdx gs c = some j) :
    j < gs.length ∧ c ∈ gs.getD j [] := by
  induction gs generalizing j with
  | nil => simp [lastIdx] at h
  | cons g rest ih =>
    rw [lastIdx] at h
    cases hrest : lastIdx rest c with
    | some k =>
      rw [hrest] at h
      obtain rfl : k + 1 = j := by simpa using h
      obtain ⟨hk1, hk2⟩ := ih k hrest
      exact ⟨by simpa using hk1, by simpa using hk2⟩
    | none =>
      rw [hrest] at h
      by_cases hcg : c ∈ g
      · rw [if_pos hcg] at h
        obtain rfl : 0 = j := by simpa using h
        exact ⟨by simp, by simpa using hcg⟩
      · rw [if_neg hcg] at h
        cases h

theorem lastIdx_eq_of_unique (gs : List (List ℕ)) (c i : ℕ) (hi : i < gs.length)
    (hc : c ∈ gs.getD i []) (huniq : ∀ j < gs.length, c ∈ gs.getD j [] → j = i) :
    lastIdx gs c = some i := by
  induction gs generalizing i with
  | nil => simp at hi
  | cons g rest ih =>
    cases i with
    | zero =>
      have hcg : c ∈ g := by simpa using hc
      have hrest : lastIdx rest c = none := by
        cases hr : lastIdx rest c with
        | none => rfl
        | some k =>
          obtain ⟨hk1, hk2⟩ := lastIdx_mem rest c k hr
          have := huniq (k + 1) (by simpa using hk1) (by simpa using hk2)
          omega
      rw [lastIdx, hrest, if_pos hcg]
    | succ k =>
      have hrest : lastIdx rest c = some k := by
        refine ih k (by simpa using hi) (by simpa using hc) fun j hj hcj => ?_
        have := huniq (j + 1) (by simpa using hj) (by simpa using hcj)
        omega
      rw [lastIdx, hrest]

theorem convFull_length (a v : List ℚ) :
    (convFull a v).length = a.length + v.length - 1 := by
  simp [convFull]

theorem convFull_getD (a v : List ℚ) (k : ℕ) (hk : k < a.length + v.length - 1) :
    (convFull a v).getD k 0
      = ∑ m ∈ Finset.range a.length,
          a.getD m 0 * (if m ≤ k ∧ k - m < v.length then v.getD (k - m) 0 else 0) := by
  rw [convFull, List.getD_eq_getElem?_getD, List.getElem?_map, List.getElem?_range hk]
  rfl

/-! ## Claim theorems: tap synthesizer -/

/-- C1: for every order ≥ 1 and every delay, `poly_taps` returns exactly
`order` coefficients, the k-th being the Lagrange basis product
`∏_{m ∈ [0,order), m ≠ k} (delay − m)/(k − m)` over nodes `{0,…,order−1}`. -/
theorem poly_taps_eq_lagrange_basis_products (order : ℤ) (delay : ℚ)
    (h : 1 ≤ order) :
    poly_taps order delay
      = .ok ((List.range order.toNat).map fun k =>
          ∏ m ∈ (Finset.range order.toNat).erase k,
            (delay - (m : ℚ)) / ((k : ℚ) - (m : ℚ))) := by
  rw [poly_taps, if_neg (by omega)]
  exact congrArg Except.ok
    (List.map_congr_left fun k _ => polyTapsCoeff_eq_prod order.toNat delay k)

theorem poly_taps_eq_lagrange_basis_products_witness :
    (1 : ℤ) ≤ 2 ∧
      poly_taps 2 (1/2)
        = .ok ((List.range (2 : ℤ).toNat).map fun k =>
            ∏ m ∈ (Finset.range (2 : ℤ).toNat).erase k,
              ((1/2 : ℚ) - (m : ℚ)) / ((k : ℚ) - (m : ℚ))) :=
  ⟨by decide, poly_taps_eq_lagrange_basis_products 2 (1/2) (by decide)⟩

/-- C2 counterexample: at `order = 2`, `delay = 0`, the code returns
`[1, 0]` — the unit coefficient sits at index 0, not at index
`order − 1 = 1` as the claim states. -/
theorem poly_taps_zero_delay_unit_at_head_not_last :
    poly_taps 2 0 = .ok [1, 0] ∧ ([1, 0] : List ℚ) ≠ [0, 1] := by
  constructor
  · rw [poly_taps, if_neg (by norm_num), show (2 : ℤ).toNat = 2 by simp]
    norm_num [polyTapsCoeff, List.range_succ]
  · simp

/-- C2 amended: for every order ≥ 1, a zero delay yields the unit
coefficient at index 0 (which in the convolution multiplies the most recent
sample) and exactly 0 at every other index. -/
theorem poly_taps_zero_delay_pass_through (order : ℤ) (h : 1 ≤ order) :
    ∃ ts, poly_taps order 0 = .ok ts ∧ ts.length = order.toNat
      ∧ ts.getD 0 0 = 1 ∧ ∀ k, 0 < k → ts.getD k 0 = 0 := by
  refine ⟨_, by rw [poly_taps, if_neg (by omega)], by simp, ?_, ?_⟩
  · rw [getD_map_range _ _ _ (by omega), polyTapsCoeff_eq_prod]
    refine Finset.prod_eq_one fun m hm => ?_
    have hm0 : m ≠ 0 := (Finset.mem_erase.mp hm).1
    have hmq : (m : ℚ) ≠ 0 := Nat.cast_ne_zero.mpr hm0
    have : (0 : ℚ) - (m : ℚ) ≠ 0 := by simpa using hmq
    exact div_self this
  · intro k hk
    rcases lt_or_le k order.toNat with hlt | hge
    · rw [getD_map_range _ _ _ hlt, polyTapsCoeff_eq_prod]
      refine Finset.prod_eq_zero (i := 0) ?_ (by simp)
      exact Finset.mem_erase.mpr ⟨by omega, Finset.mem_range.mpr (by omega)⟩
    · exact getD_map_range_of_ge _ _ _ hge

theorem poly_taps_zero_delay_pass_through_witness :
    (1 : ℤ) ≤ 3 ∧
      ∃ ts, poly_taps 3 0 = .ok ts ∧ ts.length = (3 : ℤ).toNat
        ∧ ts.getD 0 0 = 1 ∧ ∀ k, 0 < k → ts.getD k 0 = 0 :=
  ⟨by decide, poly_taps_zero_delay_pass_through 3 (by decide)⟩

/-- C3: for every order ≥ 1 and every delay, the synthesized taps sum to
exactly 1 (partition of unity of the Lagrange basis). -/
theorem poly_taps_sum_eq_one (order : ℤ) (delay : ℚ) (h : 1 ≤ order) :
    ∃ ts, poly_taps order delay = .ok ts ∧ ts.sum = 1 := by
  refine ⟨_, by rw [poly_taps, if_neg (by omega)], ?_⟩
  rw [list_range_map_sum]
  calc ∑ k ∈ Finset.range order.toNat, polyTapsCoeff order.toNat delay k
      = ∑ k ∈ Finset.range order.toNat,
          Polynomial.eval delay
            (Lagrange.basis (Finset.range order.toNat) (fun m : ℕ => (m : ℚ)) k) :=
        Finset.sum_congr rfl fun k _ => polyTapsCoeff_eq_eval_basis order.toNat delay k
    _ = Polynomial.eval delay
          (∑ k ∈ Finset.range order.toNat,
            Lagrange.basis (Finset.range order.toNat) (fun m : ℕ => (m : ℚ)) k) :=
        (Polynomial.eval_finset_sum _ _ _).symm
    _ = 1 := by
        rw [Lagrange.sum_basis (Nat.cast_injective.injOn)
          (Finset.nonempty_range_iff.mpr (by omega))]
        simp

theorem poly_taps_sum_eq_one_witness :
    (1 : ℤ) ≤ 3 ∧ ∃ ts, poly_taps 3 (1/2) = .ok ts ∧ ts.sum = 1 :=
  ⟨by decide, poly_taps_sum_eq_one 3 (1/2) (by decide)⟩

/-- C4 counterexample: at `order = 0 < 1` the code does not fail at all —
it returns an empty tap array — refuting "fails with `InvalidOrder` when
and only when order < 1". -/
theorem poly_taps_order_zero_no_failure :
    poly_taps 0 0 = .ok ([] : List ℚ) := by rfl

/-- C4 amended: the code has no `InvalidOrder` check. For every order ≥ 0
and every delay it succeeds, returning `order` coefficients (each division
`(k − m)` having nonzero denominator, so the computation is total); only a
negative order fails, with NumPy's `ValueError` from the negative array
size. -/
theorem poly_taps_failure_characterization (order : ℤ) (delay : ℚ) :
    (0 ≤ order →
      poly_taps order delay
          = .ok ((List.range order.toNat).map fun k => polyTapsCoeff order.toNat delay k)
        ∧ ∀ k m : ℕ, k < order.toNat → m < order.toNat → m ≠ k →
            ((k : ℚ) - (m : ℚ)) ≠ 0)
    ∧ (order < 0 → poly_taps order delay = .error .valueError) := by
  constructor
  · intro h0
    refine ⟨by rw [poly_taps, if_neg (by omega)], fun k m _ _ hmk => ?_⟩
    have : (k : ℚ) ≠ (m : ℚ) := by exact_mod_cast hmk.symm
    exact sub_ne_zero.mpr this
  · intro hneg
    rw [poly_taps, if_pos hneg]

theorem poly_taps_failure_characterization_witness :
    poly_taps 2 0
        = .ok ((List.range (2 : ℤ).toNat).map fun k => polyTapsCoeff (2 : ℤ).toNat 0 k)
      ∧ ∀ k m : ℕ, k < (2 : ℤ).toNat → m < (2 : ℤ).toNat → m ≠ k →
          ((k : ℚ) - (m : ℚ)) ≠ 0 :=
  (poly_taps_failure_characterization 2 0).1 (by decide)

/-- C9: `poly_taps(3, 1.0)` returns exactly `[0, 1, 0]` — a delay on an
integer node degenerates to selection of that node's sample. -/
theorem poly_taps_three_one : poly_taps 3 1 = .ok [0, 1, 0] := by
  rw [poly_taps, if_neg (by norm_num), show (3 : ℤ).toNat = 3 by simp]
  norm_num [polyTapsCoeff, List.range_succ]

/-- C10: for every delay, `poly_taps(1, delay)` returns the single tap
`[1]` (empty product), so a one-tap filter ignores the requested delay. -/
theorem poly_taps_order_one (delay : ℚ) : poly_taps 1 delay = .ok [1] := by
  rw [poly_taps, if_neg (by norm_num)]
  simp [polyTapsCoeff, List.range_succ]

/-! ## Claim theorems: signal applicator -/

/-- C5: for every tap set of length `order ≥ 1` and sample sequence of
length `n ≥ order`, valid-mode convolution succeeds, the output has
exactly `n − (order − 1)` elements, the j-th output is the convolution
sum over the `order` most recent samples ending at input index
`j + order − 1`, and the script's time pairing `sample_t[order-1:]`
aligns the j-th output with the `(j + order − 1)`-th sample instant. -/
theorem convolveValid_valid_mode_spec (taps samples : List ℚ) (order n : ℕ)
    (hto : taps.length = order) (h1 : 1 ≤ order)
    (hsn : samples.length = n) (hon : order ≤ n) :
    ∃ out, convolveValid taps samples = .ok out
      ∧ out.length = n - (order - 1)
      ∧ (∀ j < n - (order - 1), out.getD j 0
          = ∑ m ∈ Finset.range order,
              taps.getD m 0 * samples.getD (j + (order - 1) - m) 0)
      ∧ (∀ (ts : List ℚ) (j : ℕ),
          (correctedSampleTimes ts order).getD j 0 = ts.getD (j + (order - 1)) 0) := by
  have hmin : min taps.length samples.length = order := by omega
  have hmax : max taps.length samples.length = n := by omega
  have hfl : (convFull taps samples).length = order + n - 1 := by
    rw [convFull_length]; omega
  refine ⟨((convFull taps samples).drop (min taps.length samples.length - 1)).take
      (max taps.length samples.length - min taps.length samples.length + 1),
    ?_, ?_, ?_, ?_⟩
  · rw [convolveValid, if_neg (by omega)]
  · rw [List.length_take, List.length_drop, hmin, hmax, hfl]
    omega
  · intro j hj
    rw [List.getD_eq_getElem?_getD, List.getElem?_take, if_pos (by omega),
      List.getElem?_drop, ← List.getD_eq_getElem?_getD, hmin,
      convFull_getD taps samples (order - 1 + j) (by omega), hto]
    refine Finset.sum_congr rfl fun m hm => ?_
    have hmo : m < order := Finset.mem_range.mp hm
    rw [if_pos (by omega)]
    congr 2
    omega
  · intro ts j
    rw [correctedSampleTimes, List.getD_eq_getElem?_getD, List.getElem?_drop,
      ← List.getD_eq_getElem?_getD]
    congr 1
    omega

theorem convolveValid_valid_mode_spec_witness :
    ([1, 2, 3] : List ℚ).length = 3 ∧ 1 ≤ 3
    ∧ ([4, 5, 6, 7] : List ℚ).length = 4 ∧ 3 ≤ 4
    ∧ (∃ out, convolveValid [1, 2, 3] [4, 5, 6, 7] = .ok out
        ∧ out.length = 4 - (3 - 1)
        ∧ (∀ j < 4 - (3 - 1), out.getD j 0
            = ∑ m ∈ Finset.range 3,
                ([1, 2, 3] : List ℚ).getD m 0 * ([4, 5, 6, 7] : List ℚ).getD (j + (3 - 1) - m) 0)
        ∧ (∀ (ts : List ℚ) (j : ℕ),
            (correctedSampleTimes ts 3).getD j 0 = ts.getD (j + (3 - 1)) 0)) :=
  ⟨by simp, by omega, by simp, by omega,
    convolveValid_valid_mode_spec [1, 2, 3] [4, 5, 6, 7] 3 4
      (by simp) (by omega) (by simp) (by omega)⟩

/-- C8 counterexample: with 3 taps and only 2 samples, the code does not
fail — NumPy's valid-mode convolution swaps its arguments and returns the
2-element output `[13, 22]`; there is no `InsufficientSamples` error. -/
theorem convolveValid_short_input_no_failure :
    convolveValid [1, 2, 3] [4, 5] = .ok [13, 22] := by
  rw [convolveValid, if_neg (by simp)]
  norm_num [convFull, List.range_succ, Finset.sum_range_succ]

/-- C8 amended: valid-mode convolution fails (with NumPy's `ValueError`)
exactly when one operand is empty; whenever both the tap set and the
sample sequence are nonempty — in particular when the samples are fewer
than the taps — it succeeds, returning
`max(order, n) − min(order, n) + 1` elements. -/
theorem convolveValid_failure_characterization (a v : List ℚ) :
    (a ≠ [] → v ≠ [] → ∃ out, convolveValid a v = .ok out
        ∧ out.length = max a.length v.length - min a.length v.length + 1)
    ∧ ((a = [] ∨ v = []) → convolveValid a v = .error .valueError) := by
  constructor
  · intro ha hv
    have ha0 : a.length ≠ 0 := by simpa using ha
    have hv0 : v.length ≠ 0 := by simpa using hv
    refine ⟨_, by rw [convolveValid, if_neg (by omega)], ?_⟩
    rw [List.length_take, List.length_drop, convFull_length]
    omega
  · intro h
    rw [convolveValid, if_pos]
    rcases h with h | h <;> simp [h]

theorem convolveValid_failure_characterization_witness :
    ([1, 2, 3] : List ℚ) ≠ [] ∧ ([4, 5] : List ℚ) ≠ []
    ∧ (∃ out, convolveValid [1, 2, 3] [4, 5] = .ok out
        ∧ out.length
            = max ([1, 2, 3] : List ℚ).length ([4, 5] : List ℚ).length
              - min ([1, 2, 3] : List ℚ).length ([4, 5] : List ℚ).length + 1) :=
  ⟨by simp, by simp,
    (convolveValid_failure_characterization [1, 2, 3] [4, 5]).1 (by simp) (by simp)⟩

/-! ## Claim theorems: timing model -/

/-- C7 counterexample: the timing model performs no validation. With
channel 1 in zero groups it returns `[0, 0]` (no failure, delay silently
0); with channel 0 in two groups it returns `[1]` (no failure, the last
group wins). -/
theorem channelDelays_no_validation :
    channelDelays [[0]] 2 1 = .ok [0, 0]
      ∧ channelDelays [[0], [0]] 1 1 = .ok [1] := by
  constructor
  · simp only [channelDelays, channelDelaysAux, setIndices, List.replicate]
    norm_num
  · simp only [channelDelays, channelDelaysAux, setIndices, List.replicate]
    norm_num

/-- C7 amended: the timing model never raises a configuration error. When
every listed channel is in range and the groups are pairwise disjoint, it
returns the dense array with `delays[c] = index_of_group_containing(c) *
group_delay`, and a channel appearing in zero groups silently keeps delay
0 (while a channel in several groups would take the last group's delay). -/
theorem channelDelays_partition_spec (gs : List (List ℕ)) (n : ℕ) (d : ℚ)
    (hlt : ∀ g ∈ gs, ∀ c ∈ g, c < n)
    (hdisj : gs.Pairwise fun g1 g2 => ∀ c ∈ g1, c ∉ g2) :
    ∃ ds, channelDelays gs n d = .ok ds ∧ ds.length = n
      ∧ (∀ i < gs.length, ∀ c ∈ gs.getD i [], ds.getD c 0 = (i : ℚ) * d)
      ∧ (∀ c < n, (∀ g ∈ gs, c ∉ g) → ds.getD c 0 = 0) := by
  obtain ⟨ds, hs, hl, hv⟩ := channelDelaysAux_spec gs (List.replicate n 0) 0 d
    (by simpa [List.length_replicate] using hlt)
  refine ⟨ds, hs, by rw [hl, List.length_replicate], ?_, ?_⟩
  · intro i hi c hc
    have hlast : lastIdx gs c = some i := by
      refine lastIdx_eq_of_unique gs c i hi hc fun j hj hcj => ?_
      by_contra hne
      rw [List.getD_eq_getElem gs [] hj] at hcj
      rw [List.getD_eq_getElem gs [] hi] at hc
      rcases Nat.lt_or_ge j i with hlt2 | hge
      · exact (List.pairwise_iff_getElem.mp hdisj j i hj hi hlt2) c hcj hc
      · have hlt2 : i < j := by omega
        exact (List.pairwise_iff_getElem.mp hdisj i j hi hj hlt2) c hc hcj
    rw [hv c, hlast]
    simp
  · intro c _ hnot
    have hlast : lastIdx gs c = none := by
      cases hr : lastIdx gs c with
      | none => rfl
      | some k =>
        obtain ⟨hk1, hk2⟩ := lastIdx_mem gs c k hr
        rw [List.getD_eq_getElem gs [] hk1] at hk2
        exact absurd hk2 (hnot _ (List.getElem_mem hk1))
    rw [hv c, hlast]
    exact getD_replicate_zero n c

/-! ## Claim theorems: response verifier phase unwrapping -/

/-- C6: the script unwraps degree-valued phase with `np.unwrap`'s default
radian period (the double nearest 2π ≈ 6.2832), not 360. On the
degree-phase sequence `[-170, 170]` — a genuine ±360° wraparound whose
continuous unwrapping is `[-170, -190]` — the code instead shifts the
second entry by −54·(2π) ≈ −339.292, returning ≈ −169.292: the result is
neither continuous-in-degrees nor congruent to the true phase mod 360. -/
theorem unwrap_radian_period_on_degrees :
    phaseUnwrapDeg [-170, 170]
        = [-170, -11912865902893105 / 70368744177664]
      ∧ npUnwrap 360 [-170, 170] = [-170, -190]
      ∧ phaseUnwrapDeg [-170, 170] ≠ npUnwrap 360 [-170, 170] := by
  refine ⟨?_, ?_, ?_⟩
  · simp only [phaseUnwrapDeg, npUnwrap, npUnwrapAux, unwrapCorrection, qmod, twoPiFloat]
    norm_num
  · simp only [npUnwrap, npUnwrapAux, unwrapCorrection, qmod]
    norm_num
  · simp only [phaseUnwrapDeg, npUnwrap, npUnwrapAux, unwrapCorrection, qmod, twoPiFloat]
    norm_num

theorem channelDelays_partition_spec_witness :
    (∀ g ∈ groups, ∀ c ∈ g, c < 20)
    ∧ (groups.Pairwise fun g1 g2 => ∀ c ∈ g1, c ∉ g2)
    ∧ (∃ ds, channelDelays groups 20 delay_per_group = .ok ds ∧ ds.length = 20
        ∧ (∀ i < groups.length, ∀ c ∈ groups.getD i [],
            ds.getD c 0 = (i : ℚ) * delay_per_group)
        ∧ (∀ c < 20, (∀ g ∈ groups, c ∉ g) → ds.getD c 0 = 0)) :=
  ⟨by decide, by decide,
    channelDelays_partition_spec groups 20 delay_per_group (by decide) (by decide)⟩

end FilterDelay
